import Mathlib

/-!
Shallow embedding of the notebook `neural_toric_examples.ipynb`.

The notebook enumerates inductively 1-pierced neural codes
(`make_induct_one_pierced`), reorders a code (`reverse_code`), turns a code
into a matrix whose columns are its non-reference codewords
(`matrix(reverse_code(code)[1:]).transpose()`, embedded as `build_matrix`),
labels the columns (`make_variable_names_from_matrix`) and tabulates toric
data (`make_table_toric_degrees`).  The toric-ideal computation itself is an
external algebra engine; it is modelled as an oracle parameter.

Codewords are Python lists of the integers 0 and 1, embedded as `List Nat`;
codes are Python lists of codewords, embedded as `List (List Nat)`.  A Sage
matrix built as `matrix(rows).transpose()` has the given rows as its columns,
and the notebook only ever consumes such a matrix through `.columns()`; it is
therefore embedded as the list of its columns.
-/

/-- A codeword: a Python list of bits (source stores the integers 0 and 1). -/
abbrev Codeword : Type := List Nat

/-- A neural code: a Python list of codewords. -/
abbrev Code : Type := List Codeword

/-- The `inflate` list built inside `make_induct_one_pierced`: every codeword
of the code with a trailing 0 appended. -/
def inflate (code : Code) : Code :=
  code.map (fun codeword => codeword ++ [0])

/-- The zero-piercing loop of `make_induct_one_pierced`: for each codeword `d`
of the code (in order), the inflated code followed by `d` with a trailing 1
appended. -/
def zeroPiercings (code : Code) : List Code :=
  code.map (fun d => inflate code ++ [d ++ [1]])

/-- The one-piercing loop body of `make_induct_one_pierced` for one neuron
index `i`: collect `chi` (codewords with a 1 at position `i`), pair each with
its copy whose position `i` is flipped to 0 when that copy is also in the
code, and for each pair emit the inflated code followed by both partners with
a trailing 1 appended (flipped partner first). -/
def onePiercingsAt (code : Code) (i : Nat) : List Code :=
  let chi := code.filter (fun codeword => codeword.getD i 0 == 1)
  let pairs := chi.filterMap (fun codeword =>
    let partner2 := codeword.set i 0
    if partner2 ∈ code then some (codeword, partner2) else none)
  pairs.map (fun pair => inflate code ++ [pair.2 ++ [1], pair.1 ++ [1]])

/-- `make_induct_one_pierced(n)` from the notebook: all inductively 1-pierced
codes on `n` neurons.  The source recurses on `n - 1` and returns the
concatenation of all zero-piercings with all one-piercings; for `n < 1` the
source never terminates (unbounded recursion), so the `0` case here is an
unreachable stub. -/
def make_induct_one_pierced : Nat → List Code
  | 0 => []
  | 1 => [[[0], [1]]]
  | n + 2 =>
    let smaller_codes := make_induct_one_pierced (n + 1)
    let zero_piercings := smaller_codes.flatMap zeroPiercings
    let one_piercings :=
      smaller_codes.flatMap (fun code => (List.range (n + 1)).flatMap (onePiercingsAt code))
    zero_piercings ++ one_piercings

/-- `reverse_code(code)` from the notebook: start from `[code[0]]` and append
`code[len(code)-1-i]` for `i = 0, …, len(code)-2`.  The source indexes
`code[0]` directly (an `IndexError` on the empty list); here the initial
accumulator is `code.take 1`, which agrees with the source on every non-empty
input. -/
def reverse_code (code : Code) : Code :=
  (List.range (code.length - 1)).foldl
    (fun results i => results ++ [code.getD (code.length - 1 - i) []])
    (code.take 1)

/-- The characters of `str(position)` accumulated over one matrix column, as
in the inner loop of `make_variable_names_from_matrix`. -/
def digitChars (col : List Nat) : List Char :=
  col.foldl (fun acc position => acc ++ (Nat.repr position).toList) []

/-- `make_variable_names_from_matrix(mat)` from the notebook: for each column
build `'y'` followed by the column's entries as digit characters, append a
comma after every name, and finally drop the last character
(Python `names[:-1]`, which is also the identity on the empty string). -/
def make_variable_names_from_matrix (cols : List (List Nat)) : String :=
  let names : List Char :=
    cols.foldl (fun ns col => ns ++ ('y' :: digitChars col) ++ [',']) []
  String.mk names.dropLast

/-- The matrix `matrix(reverse_code(code)[1:]).transpose()` built inside
`make_table_toric_degrees`, embedded as its list of columns: the codewords of
`reverse_code code` with the first one dropped. -/
def build_matrix (code : Code) : List Codeword :=
  (reverse_code code).drop 1

/-- The Python builtin `max` on a list of integers.  On the empty list Python raises
`ValueError`; the `-1` returned here is an unreachable stub, guarded by the
hypotheses of the theorems that use it. -/
def pyMax (l : List Int) : Int :=
  match l with
  | [] => -1
  | x :: xs => xs.foldl max x

/-- `make_table_toric_degrees(code_list)` from the notebook, with the external
algebra engine abstracted as `toricOracle`: given a matrix and its variable
name string, the oracle returns the total degrees of the generators of the
toric ideal together with its Groebner basis (of abstract type `β`).
For each code the source builds the matrix, queries the engine, and appends
the row `[mat, groebner_basis, max(degrees)]` to `clean` unless the degree
list is exactly `[-1]`; the `matrices`, `toric_ideals` and `nice_formatting`
lists of the source are dead state and the final `table(...)` call is
display-only, so the embedded function returns `clean` itself. -/
def make_table_toric_degrees {β : Type} (toricOracle : List Codeword → String → List Int × β)
    (code_list : List Code) : List (List Codeword × β × Int) :=
  code_list.foldl
    (fun clean code =>
      let mat := build_matrix code
      let toric_ideal := toricOracle mat (make_variable_names_from_matrix mat)
      let degrees := toric_ideal.1
      if degrees ≠ [-1] then clean ++ [(mat, toric_ideal.2, pyMax degrees)] else clean)
    []

/-- Modelled from the spec (section 7): the matrix/label construction is said
to "fail with an `EmptyCode` kind if given a code with fewer than 2 codewords
after dropping the reference row"; this definition follows those words, to be
compared with the source-derived construction, which has no such check. -/
def build_names_specced (code : Code) : Except String String :=
  if code.length < 2 then Except.error "EmptyCode"
  else Except.ok (make_variable_names_from_matrix (build_matrix code))

/-- "Join with commas, no trailing comma", following the words of the spec
for the shape of the variable-name string. -/
def commaJoin : List (List Char) → List Char
  | [] => []
  | [name] => name
  | name :: names => name ++ ',' :: commaJoin names

lemma reverse_code_foldl (code : Code) :
    ∀ (l : List Nat) (a : Code),
      l.foldl (fun results i => results ++ [code.getD (code.length - 1 - i) []]) a
        = a ++ l.map (fun i => code.getD (code.length - 1 - i) []) := by
  intro l
  induction l with
  | nil => intro a; simp
  | cons x xs ih => intro a; rw [List.foldl_cons, ih]; simp

lemma range_map_getD_reverse {α : Type} (d : α) :
    ∀ (l : List α), (List.range l.length).map (fun i => l.getD (l.length - 1 - i) d) = l.reverse := by
  intro l
  induction l with
  | nil => simp
  | cons x xs ih =>
    rw [List.length_cons, List.range_succ, List.map_append]
    have h1 : (List.range xs.length).map (fun i => (x :: xs).getD (xs.length + 1 - 1 - i) d)
        = (List.range xs.length).map (fun i => xs.getD (xs.length - 1 - i) d) := by
      apply List.map_congr_left
      intro i hi
      rw [List.mem_range] at hi
      have h2 : xs.length + 1 - 1 - i = (xs.length - 1 - i) + 1 := by omega
      rw [h2, List.getD_cons_succ]
    rw [h1, ih]
    simp

lemma reverse_code_cons (x : Codeword) (xs : List Codeword) :
    reverse_code (x :: xs) = x :: xs.reverse := by
  simp only [reverse_code, reverse_code_foldl]
  have hlen : (x :: xs).length - 1 = xs.length := by simp
  rw [hlen]
  have hmap : (List.range xs.length).map (fun i => (x :: xs).getD (xs.length - i) [])
      = xs.reverse := by
    have h1 : (List.range xs.length).map (fun i => (x :: xs).getD (xs.length - i) [])
        = (List.range xs.length).map (fun i => xs.getD (xs.length - 1 - i) []) := by
      apply List.map_congr_left
      intro i hi
      rw [List.mem_range] at hi
      have h2 : xs.length - i = (xs.length - 1 - i) + 1 := by omega
      rw [h2, List.getD_cons_succ]
    rw [h1, range_map_getD_reverse]
  rw [hmap]
  simp

/-- C5: `reverse_code` keeps the first element in place and reverses the
remaining elements; in particular `reverse_code [a,b,c,d] = [a,d,c,b]`. -/
theorem reverse_code_fixes_head_reverses_tail :
    (∀ (x : Codeword) (xs : List Codeword), reverse_code (x :: xs) = x :: xs.reverse)
    ∧ ∀ a b c d : Codeword, reverse_code [a, b, c, d] = [a, d, c, b] := by
  refine ⟨reverse_code_cons, ?_⟩
  intro a b c d
  rw [reverse_code_cons]
  simp

lemma names_foldl :
    ∀ (cols : List (List Nat)) (a : List Char),
      cols.foldl (fun ns col => ns ++ ('y' :: digitChars col) ++ [',']) a
        = a ++ (cols.map (fun col => ('y' :: digitChars col) ++ [','])).flatten := by
  intro cols
  induction cols with
  | nil => intro a; simp
  | cons c cs ih => intro a; rw [List.foldl_cons, ih]; simp

lemma dropLast_flatten_comma :
    ∀ (cs : List (List Nat)) (c : List Nat),
      (((c :: cs).map (fun col => ('y' :: digitChars col) ++ [','])).flatten).dropLast
        = commaJoin ((c :: cs).map (fun col => 'y' :: digitChars col)) := by
  intro cs
  induction cs with
  | nil =>
    intro c
    simp only [List.map_cons, List.map_nil, List.flatten_cons, List.flatten_nil,
      List.append_nil, commaJoin]
    rw [show ('y' :: digitChars c ++ [',']) = ('y' :: digitChars c) ++ [','] by simp,
      List.dropLast_concat]
  | cons c2 cs2 ih =>
    intro c
    have hne : (((c2 :: cs2).map (fun col => ('y' :: digitChars col) ++ [','])).flatten) ≠ [] := by
      simp
    rw [List.map_cons, List.flatten_cons, List.dropLast_append_of_ne_nil _ hne, ih c2]
    simp [commaJoin]

/-- C6: `make_variable_names_from_matrix` builds, per column, the name `'y'`
followed by the entries of the column as digit characters, and joins the names
with commas without a trailing comma; on the matrix with columns `[1,0]` and
`[0,1]` it returns exactly "y10,y01". -/
theorem variable_names_are_comma_joined :
    (∀ (c : List Nat) (cs : List (List Nat)),
      make_variable_names_from_matrix (c :: cs)
        = String.mk (commaJoin ((c :: cs).map (fun col => 'y' :: digitChars col))))
    ∧ make_variable_names_from_matrix [[1, 0], [0, 1]] = "y10,y01" := by
  constructor
  · intro c cs
    simp only [make_variable_names_from_matrix, names_foldl, List.nil_append]
    rw [dropLast_flatten_comma]
  · decide

lemma mem_make_induct_succ_succ {n : Nat} {code : Code} :
    code ∈ make_induct_one_pierced (n + 2) ↔
      ∃ C ∈ make_induct_one_pierced (n + 1),
        (code ∈ zeroPiercings C ∨ ∃ i < n + 1, code ∈ onePiercingsAt C i) := by
  simp only [make_induct_one_pierced, List.mem_append, List.mem_flatMap, List.mem_range]
  constructor
  · rintro (⟨C, hC, h⟩ | ⟨C, hC, i, hi, h⟩)
    · exact ⟨C, hC, Or.inl h⟩
    · exact ⟨C, hC, Or.inr ⟨i, hi, h⟩⟩
  · rintro ⟨C, hC, h | ⟨i, hi, h⟩⟩
    · exact Or.inl ⟨C, hC, h⟩
    · exact Or.inr ⟨C, hC, i, hi, h⟩

lemma mem_zeroPiercings {C code : Code} :
    code ∈ zeroPiercings C ↔ ∃ d ∈ C, code = inflate C ++ [d ++ [1]] := by
  simp only [zeroPiercings, List.mem_map]
  constructor
  · rintro ⟨d, hd, rfl⟩; exact ⟨d, hd, rfl⟩
  · rintro ⟨d, hd, rfl⟩; exact ⟨d, hd, rfl⟩

lemma mem_onePiercingsAt {C code : Code} {i : Nat} :
    code ∈ onePiercingsAt C i ↔
      ∃ p ∈ C, p.getD i 0 = 1 ∧ p.set i 0 ∈ C
        ∧ code = inflate C ++ [(p.set i 0) ++ [1], p ++ [1]] := by
  simp only [onePiercingsAt, List.mem_map, List.mem_filterMap, List.mem_filter]
  constructor
  · rintro ⟨pair, ⟨cw, ⟨hcwC, hbit⟩, hif⟩, rfl⟩
    by_cases hmem : cw.set i 0 ∈ C
    · rw [if_pos hmem] at hif
      obtain rfl := Option.some.inj hif
      refine ⟨cw, hcwC, ?_, hmem, rfl⟩
      simpa using hbit
    · rw [if_neg hmem] at hif
      cases hif
  · rintro ⟨p, hpC, hbit, hmem, rfl⟩
    refine ⟨(p, p.set i 0), ⟨p, ⟨hpC, ?_⟩, ?_⟩, rfl⟩
    · simpa using hbit
    · rw [if_pos hmem]

lemma mem_inflate {C : Code} {cw : Codeword} :
    cw ∈ inflate C ↔ ∃ c ∈ C, cw = c ++ [0] := by
  simp only [inflate, List.mem_map]
  constructor
  · rintro ⟨c, hc, rfl⟩; exact ⟨c, hc, rfl⟩
  · rintro ⟨c, hc, rfl⟩; exact ⟨c, hc, rfl⟩

lemma make_induct_codeword_length :
    ∀ n : Nat, ∀ code ∈ make_induct_one_pierced (n + 1), ∀ cw ∈ code, cw.length = n + 1 := by
  intro n
  induction n with
  | zero =>
    intro code hc cw hcw
    simp only [make_induct_one_pierced, List.mem_singleton] at hc
    subst hc
    simp only [List.mem_cons, List.mem_singleton, List.not_mem_nil, or_false] at hcw
    rcases hcw with rfl | rfl <;> rfl
  | succ m ih =>
    intro code hc cw hcw
    have hc' : code ∈ make_induct_one_pierced (m + 2) := hc
    rw [mem_make_induct_succ_succ] at hc'
    obtain ⟨C, hC, hzo⟩ := hc'
    rcases hzo with hz | ⟨i, hi, ho⟩
    · rw [mem_zeroPiercings] at hz
      obtain ⟨d, hd, rfl⟩ := hz
      rcases List.mem_append.mp hcw with h | h
      · rw [mem_inflate] at h
        obtain ⟨c, hcC, rfl⟩ := h
        simp [ih C hC c hcC]
      · rw [List.mem_singleton] at h
        subst h
        simp [ih C hC d hd]
    · rw [mem_onePiercingsAt] at ho
      obtain ⟨p, hpC, _, _, rfl⟩ := ho
      rcases List.mem_append.mp hcw with h | h
      · rw [mem_inflate] at h
        obtain ⟨c, hcC, rfl⟩ := h
        simp [ih C hC c hcC]
      · simp only [List.mem_cons, List.mem_singleton, List.not_mem_nil, or_false] at h
        rcases h with rfl | rfl
        · simp [List.length_set, ih C hC p hpC]
        · simp [ih C hC p hpC]

/-- C7: for every positive `n`, every codeword of every code returned by
`make_induct_one_pierced n` has length exactly `n`. -/
theorem pierced_codes_codeword_length (n : Nat) (hn : 0 < n)
    (code : Code) (hcode : code ∈ make_induct_one_pierced n)
    (cw : Codeword) (hcw : cw ∈ code) : cw.length = n := by
  cases n with
  | zero => exact absurd hn (by simp)
  | succ m => exact make_induct_codeword_length m code hcode cw hcw

/-- C7 witness: the codeword `[1,0,0]` of the first code returned for `n = 3`
has length 3. -/
theorem pierced_codes_codeword_length_witness :
    ([1, 0, 0] : Codeword).length = 3 :=
  pierced_codes_codeword_length 3 (by decide)
    [[0, 0, 0], [1, 0, 0], [0, 1, 0], [0, 0, 1]] (by decide) [1, 0, 0] (by decide)

/-- C8: for every `n > 1` (written `n + 2`), the result of
`make_induct_one_pierced` starts with, for each code `C` of the recursive
call in order, one zero-piercing per codeword `d` of `C` — namely
`inflate C` followed by the single extra codeword `d ++ [1]` — so each `C`
contributes exactly `C.length` zero-piercings. -/
theorem zero_piercings_block_of_recursive_call (n : Nat) :
    (∃ rest, make_induct_one_pierced (n + 2)
        = (make_induct_one_pierced (n + 1)).flatMap
            (fun C => C.map (fun d => inflate C ++ [d ++ [1]])) ++ rest)
    ∧ ∀ C : Code, (C.map (fun d => inflate C ++ [d ++ [1]])).length = C.length := by
  constructor
  · refine ⟨(make_induct_one_pierced (n + 1)).flatMap
        (fun code => (List.range (n + 1)).flatMap (onePiercingsAt code)), ?_⟩
    simp only [make_induct_one_pierced, zeroPiercings]
    rfl
  · intro C
    exact List.length_map _ _

lemma append_zero_ne_append_one (a b : List Nat) : a ++ [0] ≠ b ++ [1] := by
  intro h
  have h2 := congrArg List.getLast? h
  simp [List.getLast?_concat] at h2

lemma not_append_one_mem_inflate {C : Code} (d : Codeword) : d ++ [1] ∉ inflate C := by
  rw [mem_inflate]
  rintro ⟨c, _, hc⟩
  exact append_zero_ne_append_one c d hc.symm

lemma inflate_nodup {C : Code} (h : C.Nodup) : (inflate C).Nodup := by
  simp only [inflate]
  exact h.map (fun a b hab => (List.append_left_inj _).mp hab)

lemma set_zero_ne_self {p : Codeword} {i : Nat} (h : p.getD i 0 = 1) : p.set i 0 ≠ p := by
  intro he
  have hi : i < p.length := by
    by_contra hni
    push_neg at hni
    rw [List.getD_eq_default _ _ hni] at h
    exact absurd h (by simp)
  have h0 : (p.set i 0).getD i 0 = 0 := by
    rw [List.getD_eq_getElem?_getD, List.getElem?_set_self]
    · simp
    · simpa using hi
  rw [he] at h0
  rw [h0] at h
  exact absurd h (by simp)

lemma make_induct_nodup :
    ∀ n : Nat, ∀ code ∈ make_induct_one_pierced (n + 1), code.Nodup := by
  intro n
  induction n with
  | zero =>
    intro code hc
    simp only [make_induct_one_pierced, List.mem_singleton] at hc
    subst hc
    decide
  | succ m ih =>
    intro code hc
    have hc' : code ∈ make_induct_one_pierced (m + 2) := hc
    rw [mem_make_induct_succ_succ] at hc'
    obtain ⟨C, hC, hzo⟩ := hc'
    have hCnd := ih C hC
    rcases hzo with hz | ⟨i, hi, ho⟩
    · rw [mem_zeroPiercings] at hz
      obtain ⟨d, hd, rfl⟩ := hz
      rw [List.nodup_append]
      refine ⟨inflate_nodup hCnd, List.nodup_singleton _, ?_⟩
      intro x hx hx1
      rw [List.mem_singleton] at hx1
      subst hx1
      exact not_append_one_mem_inflate d hx
    · rw [mem_onePiercingsAt] at ho
      obtain ⟨p, hpC, hbit, hmem, rfl⟩ := ho
      rw [List.nodup_append]
      refine ⟨inflate_nodup hCnd, ?_, ?_⟩
      · simp only [List.nodup_cons, List.mem_singleton, List.not_mem_nil, not_false_iff,
          List.nodup_nil, and_true]
        intro heq
        exact set_zero_ne_self hbit ((List.append_left_inj _).mp heq)
      · intro x hx hx2
        simp only [List.mem_cons, List.mem_singleton, List.not_mem_nil, or_false] at hx2
        rcases hx2 with rfl | rfl
        · exact not_append_one_mem_inflate _ hx
        · exact not_append_one_mem_inflate _ hx

/-- C9: for every positive `n`, the codewords within any single code returned
by `make_induct_one_pierced n` are pairwise distinct. -/
theorem pierced_codes_codewords_distinct (n : Nat) (hn : 0 < n)
    (code : Code) (hcode : code ∈ make_induct_one_pierced n) : code.Nodup := by
  cases n with
  | zero => exact absurd hn (by simp)
  | succ m => exact make_induct_nodup m code hcode

/-- C9 witness: the first code returned for `n = 3` has pairwise distinct
codewords. -/
theorem pierced_codes_codewords_distinct_witness :
    ([[0, 0, 0], [1, 0, 0], [0, 1, 0], [0, 0, 1]] : Code).Nodup :=
  pierced_codes_codewords_distinct 3 (by decide)
    [[0, 0, 0], [1, 0, 0], [0, 1, 0], [0, 0, 1]] (by decide)

lemma make_induct_head :
    ∀ n : Nat, ∀ code ∈ make_induct_one_pierced (n + 1),
      code.head? = some (List.replicate (n + 1) 0) := by
  intro n
  induction n with
  | zero =>
    intro code hc
    simp only [make_induct_one_pierced, List.mem_singleton] at hc
    subst hc
    rfl
  | succ m ih =>
    intro code hc
    have hc' : code ∈ make_induct_one_pierced (m + 2) := hc
    rw [mem_make_induct_succ_succ] at hc'
    obtain ⟨C, hC, hzo⟩ := hc'
    have hHead := ih C hC
    have h2 : List.replicate (m + 2) (0 : Nat) = List.replicate (m + 1) 0 ++ [0] :=
      List.replicate_add (m + 1) 1 0
    have hInf : (inflate C).head? = some (List.replicate (m + 2) 0) := by
      simp only [inflate, List.head?_map, hHead, Option.map_some]
      rw [h2]
      rfl
    rcases hzo with hz | ⟨i, hi, ho⟩
    · rw [mem_zeroPiercings] at hz
      obtain ⟨d, hd, rfl⟩ := hz
      simp [List.head?_append, hInf]
    · rw [mem_onePiercingsAt] at ho
      obtain ⟨p, hpC, _, _, rfl⟩ := ho
      simp [List.head?_append, hInf]

/-- C10: for every positive `n`, every code returned by
`make_induct_one_pierced n` starts with the all-zero codeword of length `n`;
consequently `reverse_code` keeps that codeword first, and dropping the first
element after `reverse_code` removes exactly the all-zero reference codeword,
leaving the remaining codewords reversed. -/
theorem pierced_codes_first_codeword_all_zero (n : Nat) (hn : 0 < n)
    (code : Code) (hcode : code ∈ make_induct_one_pierced n) :
    code.head? = some (List.replicate n 0)
    ∧ (reverse_code code).head? = some (List.replicate n 0)
    ∧ (reverse_code code).drop 1 = (code.drop 1).reverse := by
  cases n with
  | zero => exact absurd hn (by simp)
  | succ m =>
    have h1 := make_induct_head m code hcode
    cases code with
    | nil => simp at h1
    | cons x xs =>
      have hx : x = List.replicate (m + 1) 0 := by simpa using h1
      rw [reverse_code_cons]
      subst hx
      exact ⟨rfl, rfl, by simp⟩

/-- C10 witness: for `n = 1` the single returned code starts with `[0]`,
`reverse_code` keeps it first, and dropping it leaves the rest reversed. -/
theorem pierced_codes_first_codeword_all_zero_witness :
    ([[0], [1]] : Code).head? = some (List.replicate 1 0)
    ∧ (reverse_code [[0], [1]]).head? = some (List.replicate 1 0)
    ∧ (reverse_code [[0], [1]]).drop 1 = (([[0], [1]] : Code).drop 1).reverse :=
  pierced_codes_first_codeword_all_zero 1 (by decide) [[0], [1]] (by decide)

/-- C1 counterexample: `make_induct_one_pierced 1` is a one-element list (one
code holding both codewords), not the two-element sequence
`[[[0]], [[1]]]` of two single-codeword codes that the claim states. -/
theorem make_induct_one_not_two_singleton_codes :
    make_induct_one_pierced 1 ≠ [[[0]], [[1]]] ∧ (make_induct_one_pierced 1).length = 1 := by
  decide

/-- C1 amended: `make_induct_one_pierced 1` returns exactly one code, and that
code contains exactly the two codewords `[0]` and `[1]`, i.e. the result is
the one-element sequence `[[[0], [1]]]`. -/
theorem make_induct_one_single_code :
    make_induct_one_pierced 1 = [[[0], [1]]] := rfl

/-- C2: `make_induct_one_pierced 3` returns a sequence of exactly 18 codes. -/
theorem make_induct_three_has_eighteen_codes :
    (make_induct_one_pierced 3).length = 18 := by decide

/-- C3 counterexample: on a code with a single codeword the construction does
not fail at all, let alone with an `EmptyCode` error: the source-derived
pipeline builds a matrix with no columns and returns the empty name string,
while only the spec-modelled checked variant produces the `EmptyCode`
error the claim describes. -/
theorem no_empty_code_error_on_singleton :
    build_matrix [[0, 0]] = []
    ∧ make_variable_names_from_matrix (build_matrix [[0, 0]]) = ""
    ∧ build_names_specced [[0, 0]] = Except.error "EmptyCode" :=
  ⟨rfl, rfl, rfl⟩

/-- C3 amended: given a code with exactly one codeword (so that no column
remains after dropping the reference row), the construction raises no
`EmptyCode` error: `build_matrix` returns the empty column list and
`make_variable_names_from_matrix` returns the empty string.  (On the empty
code the source instead fails indexing `code[0]` inside `reverse_code`,
again not an `EmptyCode` error; the source contains no such check.) -/
theorem singleton_code_gives_empty_matrix_and_names (cw : Codeword) :
    build_matrix [cw] = [] ∧ make_variable_names_from_matrix (build_matrix [cw]) = "" := by
  constructor
  · rfl
  · rfl

lemma foldl_if_append {α γ : Type} (p : α → Prop) [DecidablePred p] (f : α → γ) :
    ∀ (l : List α) (acc : List γ),
      l.foldl (fun clean x => if ¬ p x then clean ++ [f x] else clean) acc
        = acc ++ l.filterMap (fun x => if p x then none else some (f x)) := by
  intro l
  induction l with
  | nil => intro acc; simp
  | cons x xs ih =>
    intro acc
    rw [List.foldl_cons]
    by_cases h : p x
    · rw [if_neg (not_not_intro h), ih]
      simp [List.filterMap_cons, if_pos h]
    · rw [if_pos h, ih]
      simp [List.filterMap_cons, if_neg h, List.append_assoc]

/-- C4: `make_table_toric_degrees` processes every code of its input in
order, discards exactly those codes whose degree list is exactly `[-1]`, and
returns the remaining `(matrix, groebner_basis, max_degree)` rows in input
order; under the hypothesis that the engine never returns an empty degree
list (the Python builtin `max` would raise there), the recorded `max_degree` is the
maximum of the degree list. -/
theorem make_table_filters_and_preserves_order {β : Type}
    (toricOracle : List Codeword → String → List Int × β) (code_list : List Code)
    (hne : ∀ code ∈ code_list,
      (toricOracle (build_matrix code)
        (make_variable_names_from_matrix (build_matrix code))).1 ≠ []) :
    make_table_toric_degrees toricOracle code_list
      = code_list.filterMap (fun code =>
          if (toricOracle (build_matrix code)
              (make_variable_names_from_matrix (build_matrix code))).1 = [-1] then none
          else some (build_matrix code,
            (toricOracle (build_matrix code)
              (make_variable_names_from_matrix (build_matrix code))).2,
            pyMax (toricOracle (build_matrix code)
              (make_variable_names_from_matrix (build_matrix code))).1))
    ∧ ∀ code ∈ code_list,
        (toricOracle (build_matrix code)
          (make_variable_names_from_matrix (build_matrix code))).1.max?
          = some (pyMax (toricOracle (build_matrix code)
              (make_variable_names_from_matrix (build_matrix code))).1) := by
  constructor
  · have h := foldl_if_append
      (fun code => (toricOracle (build_matrix code)
        (make_variable_names_from_matrix (build_matrix code))).1 = [-1])
      (fun code => (build_matrix code,
        (toricOracle (build_matrix code)
          (make_variable_names_from_matrix (build_matrix code))).2,
        pyMax (toricOracle (build_matrix code)
          (make_variable_names_from_matrix (build_matrix code))).1))
      code_list []
    exact h
  · intro code hc
    cases hdeg : (toricOracle (build_matrix code)
        (make_variable_names_from_matrix (build_matrix code))).1 with
    | nil => exact absurd hdeg (hne code hc)
    | cons x xs => rfl

/-- C4 witness: with a constant oracle answering degree list `[2]` and basis
`0`, the single code `[[0],[1]]` yields the single row `([[1]], 0, 2)`. -/
theorem make_table_filters_and_preserves_order_witness :
    make_table_toric_degrees (fun _ _ => (([2] : List Int), (0 : Nat))) [[[0], [1]]]
      = [([[1]], 0, 2)] := by
  have h := (make_table_filters_and_preserves_order
    (fun _ _ => (([2] : List Int), (0 : Nat))) [[[0], [1]]] (by decide)).1
  rw [h]
  decide
